import Mathlib

/-!
Verification development for the toy-lsm-db storage engine core.

The Rust sources under src/core/src are shallowly embedded below.
Byte streams are lists of natural numbers (each byte a value below 256,
produced by the little-endian serializers); machine integers (u128 for
timestamps, usize for sizes) are naturals, with wrapping arithmetic made
explicit modulo 2 ^ 64 where the source performs usize arithmetic that
can wrap (release-mode Rust semantics).

Loops that the Rust source runs until a reader is exhausted are embedded
with an explicit structural fuel so that every definition computes by
kernel reduction; fuel-irrelevance lemmas are proved where the fuel is
not forced by the input size.
-/

namespace ToyLsmDb

/-! Byte-stream primitives shared by the codec, the WAL and the SSTable. -/

abbrev Bytes := List Nat

/-- Little-endian serialization of a machine integer into a fixed number of
bytes, as produced by to_le_bytes in the Rust source (u128 gives 16 bytes,
usize gives 8 bytes). -/
def toLE : Nat → Nat → Bytes
  | 0, _ => []
  | w + 1, n => n % 256 :: toLE w (n / 256)

/-- Little-endian deserialization, as performed by from_le_bytes. -/
def fromLE : Bytes → Nat
  | [] => 0
  | b :: bs => b + 256 * fromLE bs

/-- One read_exact call on an in-memory byte stream: succeeds returning the
requested chunk and the remaining stream when enough bytes are available,
and fails (the UnexpectedEof io error) otherwise. Defined by structural
recursion on the requested count so that it evaluates without deep
recursion; readExact_spec below restates it through take and drop. -/
def readExact : Nat → Bytes → Option (Bytes × Bytes)
  | 0, s => some ([], s)
  | _ + 1, [] => none
  | n + 1, b :: s =>
    match readExact n s with
    | none => none
    | some (c, t) => some (b :: c, t)

/-! Binary record codec (utils.rs, CommonBinaryFormat and
CommonBinaryFormatRef). A record is a timestamp, a key and an optional
value; a missing value is a tombstone. -/

structure CommonBinaryFormat where
  timestamp : Nat
  key : Bytes
  value : Option Bytes
deriving DecidableEq

/-- Embedding of CommonBinaryFormatRef.write (utils.rs lines 115-127):
timestamp (16 bytes LE), tombstone flag (1 byte: 0 when a value follows,
1 for a delete), key length (8 bytes LE), value length (8 bytes LE, only
when a value follows), key bytes, value bytes. -/
def cbfWrite (r : CommonBinaryFormat) : Bytes :=
  toLE 16 r.timestamp
    ++ [if r.value.isSome then 0 else 1]
    ++ toLE 8 r.key.length
    ++ (match r.value with
        | some v => toLE 8 v.length
        | none => [])
    ++ r.key
    ++ (match r.value with
        | some v => v
        | none => [])

/-- The only error the pure reader can produce: some read_exact ran out of
input (the UnexpectedEof io error kind in Rust). -/
inductive ReadError where
  | unexpectedEof
deriving DecidableEq

/-- Embedding of CommonBinaryFormat.read (utils.rs lines 70-103). Reads the
fixed header fields, then the key, then (unless the tombstone flag is set)
the value, returning the decoded record and the remaining stream. -/
def cbfRead (s : Bytes) : Except ReadError (CommonBinaryFormat × Bytes) :=
  match readExact 16 s with
  | none => .error .unexpectedEof
  | some (tsb, s1) =>
    match readExact 1 s1 with
    | none => .error .unexpectedEof
    | some (tb, s2) =>
      match readExact 8 s2 with
      | none => .error .unexpectedEof
      | some (ksb, s3) =>
        if tb.headD 0 != 0 then
          match readExact (fromLE ksb) s3 with
          | none => .error .unexpectedEof
          | some (key, s4) => .ok (⟨fromLE tsb, key, none⟩, s4)
        else
          match readExact 8 s3 with
          | none => .error .unexpectedEof
          | some (vsb, s4) =>
            match readExact (fromLE ksb) s4 with
            | none => .error .unexpectedEof
            | some (key, s5) =>
              match readExact (fromLE vsb) s5 with
              | none => .error .unexpectedEof
              | some (value, s6) => .ok (⟨fromLE tsb, key, some value⟩, s6)

/-! MemTable (memtable.rs): a key-sorted vector of entries plus a data_size
counter. usize arithmetic on data_size is modelled with explicit wrapping
modulo 2 ^ 64 (release-mode Rust semantics; debug builds would panic at the
same points where the wrap below changes the mathematical value). -/

/-- Wrapping usize addition. -/
def wrapAdd (a b : Nat) : Nat := (a + b) % 2 ^ 64

/-- Wrapping usize subtraction: equals a - b when b is at most a (both below
2 ^ 64) and wraps around otherwise, exactly as release-mode Rust. -/
def wrapSub (a b : Nat) : Nat := (a + (2 ^ 64 - b % 2 ^ 64)) % 2 ^ 64

structure MemTableEntry where
  key : Bytes
  /-- none marks a tombstone (corresponds to a delete). -/
  value : Option Bytes
  timestamp : Nat
deriving DecidableEq

structure MemTable where
  /-- Vector of entries sorted by key. -/
  entries : List MemTableEntry
  data_size : Nat
deriving DecidableEq

/-- Per-entry overhead added to data_size on fresh inserts: the value of
mem::size_of::<MemTableEntry>() on a 64-bit host (a 24-byte Vec, a 24-byte
Option<Vec>, a 16-byte u128), as confirmed by the unit test in memtable.rs
(data_size 70 after inserting a 3-byte key with a 3-byte value). -/
def memTableEntryOverhead : Nat := 64

/-- Lexicographic byte-slice comparison, the Ord instance Rust uses for
&[u8] inside binary_search_by_key. -/
def lexCompare : Bytes → Bytes → Ordering
  | [], [] => .eq
  | [], _ :: _ => .lt
  | _ :: _, [] => .gt
  | a :: as, b :: bs =>
    if a < b then .lt else if b < a then .gt else lexCompare as bs

/-- The binary-search loop of slice::binary_search_by, specialized to the
key projection used by MemTable.get_index. The loop runs while left < right
and the interval shrinks at every iteration, so any fuel of at least the
initial interval width reproduces the Rust loop exactly; callers pass the
list length. Returns ok with the found index or error with the insertion
index. -/
def bsearchGo : Nat → List Bytes → Bytes → Nat → Nat → Except Nat Nat
  | 0, _, _, left, _ => .error left
  | fuel + 1, keys, target, left, right =>
    if left < right then
      match lexCompare (keys.getD (left + (right - left) / 2) []) target with
      | .lt => bsearchGo fuel keys target (left + (right - left) / 2 + 1) right
      | .gt => bsearchGo fuel keys target left (left + (right - left) / 2)
      | .eq => .ok (left + (right - left) / 2)
    else .error left

/-- Embedding of MemTable.get_index (memtable.rs lines 27-30): ok with the
found index, error with the index at which to insert. -/
def MemTable.get_index (mt : MemTable) (key : Bytes) : Except Nat Nat :=
  bsearchGo mt.entries.length (mt.entries.map fun e => e.key) key 0
    mt.entries.length

/-- Vec::insert: insert an element at a position, shifting the suffix. -/
def insertAt : Nat → MemTableEntry → List MemTableEntry → List MemTableEntry
  | 0, a, l => a :: l
  | _ + 1, a, [] => [a]
  | n + 1, a, x :: l => x :: insertAt n a l

def MemTable.new : MemTable := ⟨[], 0⟩

/-- Embedding of MemTable.put (memtable.rs lines 32-56). When the key is
found the stored value and timestamp are replaced; data_size is adjusted by
the difference of value lengths only when the previous entry held a live
value (a put over a tombstone leaves data_size untouched). When the key is
absent a fresh entry is inserted and data_size grows by key length plus
value length plus the per-entry overhead. -/
def MemTable.put (mt : MemTable) (timestamp : Nat) (key value : Bytes) :
    MemTable :=
  match mt.get_index key with
  | .ok idx =>
    let elem := mt.entries.getD idx ⟨[], none, 0⟩
    let newSize :=
      match elem.value with
      | some currentValue =>
        if currentValue.length < value.length then
          wrapAdd mt.data_size (value.length - currentValue.length)
        else
          wrapSub mt.data_size (currentValue.length - value.length)
      | none => mt.data_size
    ⟨mt.entries.set idx { elem with value := some value, timestamp := timestamp },
      newSize⟩
  | .error idx =>
    ⟨insertAt idx ⟨key, some value, timestamp⟩ mt.entries,
      wrapAdd mt.data_size (key.length + value.length + memTableEntryOverhead)⟩

/-- Embedding of MemTable.delete (memtable.rs lines 58-78). When the key is
found the value becomes a tombstone and data_size shrinks by the previous
live value length (unchanged when the entry was already a tombstone). When
the key is absent a tombstone entry is inserted and data_size grows by key
length plus the per-entry overhead. -/
def MemTable.delete (mt : MemTable) (timestamp : Nat) (key : Bytes) :
    MemTable :=
  match mt.get_index key with
  | .ok idx =>
    let elem := mt.entries.getD idx ⟨[], none, 0⟩
    let newSize :=
      match elem.value with
      | some v => wrapSub mt.data_size v.length
      | none => mt.data_size
    ⟨mt.entries.set idx { elem with value := none, timestamp := timestamp },
      newSize⟩
  | .error idx =>
    ⟨insertAt idx ⟨key, none, timestamp⟩ mt.entries,
      wrapAdd mt.data_size (key.length + memTableEntryOverhead)⟩

/-- Embedding of MemTable.get (memtable.rs lines 80-84). -/
def MemTable.get (mt : MemTable) (key : Bytes) : Option MemTableEntry :=
  match mt.get_index key with
  | .ok idx => some (mt.entries.getD idx ⟨[], none, 0⟩)
  | .error _ => none

/-- Embedding of MemTable.size (memtable.rs lines 86-88). -/
def MemTable.size (mt : MemTable) : Nat := mt.data_size

/-! BufWriter<File> (std): a user-space buffer of capacity 8192 bytes in
front of a file. A write first drains the buffer when it would overflow,
then either writes directly to the file (chunks at least as large as the
capacity) or appends to the buffer. -/

structure BufWriter where
  /-- The chunks sitting in the user-space buffer, not yet in the file,
  most recent first; the byte content of the buffer is bufBytes below.
  Keeping the written chunks instead of one concatenated byte list changes
  nothing observable and lets the model evaluate without deep recursion. -/
  bufChunks : List Bytes
  /-- Bytes already written to the file on disk. -/
  disk : Bytes
deriving DecidableEq

/-- The byte content of the user-space buffer. -/
def bufBytes (w : BufWriter) : Bytes := (w.bufChunks.reverse).flatten

/-- Default BufWriter capacity in std (8 * 1024 bytes). -/
def bufCap : Nat := 8192

/-- One write_all call through a BufWriter, returning the new state and
the bytes this call appended to the file: when the chunk would overflow
the buffer the buffer is drained first, after which a chunk of at least
the capacity goes straight to the file and a smaller one is buffered. -/
def bwWriteF (w : BufWriter) (c : Bytes) : BufWriter × Bytes :=
  if bufCap < (bufBytes w).length + c.length then
    if bufCap ≤ c.length then
      (⟨[], w.disk ++ bufBytes w ++ c⟩, bufBytes w ++ c)
    else (⟨[c], w.disk ++ bufBytes w⟩, bufBytes w)
  else
    if bufCap ≤ c.length then (⟨w.bufChunks, w.disk ++ c⟩, c)
    else (⟨c :: w.bufChunks, w.disk⟩, [])

/-- The state after one buffered write. -/
def bwWrite (w : BufWriter) (c : Bytes) : BufWriter := (bwWriteF w c).1

/-- BufWriter flush: drain the buffer to the file. -/
def bwFlush (w : BufWriter) : BufWriter := ⟨[], w.disk ++ bufBytes w⟩

/-! Write-ahead log (wal.rs). -/

/-- A WriteAheadLog is a buffered writer on a file plus the captured path
(wal.rs lines 10-13). Paths are modelled as the byte string of the file
stem; every WAL file shares the same .wal extension, and for the decimal
stems the source produces, lexicographic order on stems coincides with
lexicographic order on full file names. -/
structure WriteAheadLog where
  target : BufWriter
  path : Bytes
deriving DecidableEq

/-- Embedding of WriteAheadLog.put (wal.rs lines 71-86): six write_all
calls through the buffered writer, spelling out the record layout field
by field. Besides the new state it returns the bytes the six writes
appended to the file, which the load_dir model below needs because the
file being appended to can also be the file being replayed. -/
def WriteAheadLog.putF (w : WriteAheadLog) (key value : Bytes)
    (timestamp : Nat) : WriteAheadLog × Bytes :=
  let s1 := bwWriteF w.target (toLE 16 timestamp)
  let s2 := bwWriteF s1.1 [0]
  let s3 := bwWriteF s2.1 (toLE 8 key.length)
  let s4 := bwWriteF s3.1 (toLE 8 value.length)
  let s5 := bwWriteF s4.1 key
  let s6 := bwWriteF s5.1 value
  (⟨s6.1, w.path⟩, s1.2 ++ s2.2 ++ s3.2 ++ s4.2 ++ s5.2 ++ s6.2)

/-- The state after WriteAheadLog.put. -/
def WriteAheadLog.put (w : WriteAheadLog) (key value : Bytes)
    (timestamp : Nat) : WriteAheadLog :=
  (w.putF key value timestamp).1

/-- Embedding of WriteAheadLog.delete (wal.rs lines 88-95): four write_all
calls (no value length, no value bytes, tombstone flag 1), again paired
with the bytes that reached the file. -/
def WriteAheadLog.deleteF (w : WriteAheadLog) (key : Bytes)
    (timestamp : Nat) : WriteAheadLog × Bytes :=
  let s1 := bwWriteF w.target (toLE 16 timestamp)
  let s2 := bwWriteF s1.1 [1]
  let s3 := bwWriteF s2.1 (toLE 8 key.length)
  let s4 := bwWriteF s3.1 key
  (⟨s4.1, w.path⟩, s1.2 ++ s2.2 ++ s3.2 ++ s4.2)

/-- The state after WriteAheadLog.delete. -/
def WriteAheadLog.delete (w : WriteAheadLog) (key : Bytes)
    (timestamp : Nat) : WriteAheadLog :=
  (w.deleteF key timestamp).1

/-- Embedding of WriteAheadLog.flush (wal.rs lines 97-99). -/
def WriteAheadLog.flush (w : WriteAheadLog) : WriteAheadLog :=
  { w with target := bwFlush w.target }

structure WriteAheadLogEntry where
  key : Bytes
  value : Option Bytes
  timestamp : Nat
deriving DecidableEq

/-- Embedding of the Iterator::next implementation of WriteAheadLogIterator
(wal.rs lines 129-163): the same field layout as CommonBinaryFormat.read,
but every failed read_exact is turned into end of iteration by the ok()?
calls. Returns the decoded entry together with the remaining stream. -/
def walIterNext (s : Bytes) : Option (WriteAheadLogEntry × Bytes) :=
  match readExact 16 s with
  | none => none
  | some (tsb, s1) =>
    match readExact 1 s1 with
    | none => none
    | some (tb, s2) =>
      match readExact 8 s2 with
      | none => none
      | some (ksb, s3) =>
        if tb.headD 0 != 0 then
          match readExact (fromLE ksb) s3 with
          | none => none
          | some (key, s4) => some (⟨key, none, fromLE tsb⟩, s4)
        else
          match readExact 8 s3 with
          | none => none
          | some (vsb, s4) =>
            match readExact (fromLE ksb) s4 with
            | none => none
            | some (key, s5) =>
              match readExact (fromLE vsb) s5 with
              | none => none
              | some (value, s6) => some (⟨key, some value, fromLE tsb⟩, s6)

/-- Collecting a WriteAheadLogIterator over a fixed byte stream. The fuel
list only bounds the number of records; every successful walIterNext
consumes at least 17 bytes, so using the stream itself as fuel always
suffices (walEntries_eq below recovers the unbounded loop equation). -/
def walEntriesGo : List Nat → Bytes → List WriteAheadLogEntry
  | [], _ => []
  | _ :: fuel, s =>
    match walIterNext s with
    | none => []
    | some (e, rest) => e :: walEntriesGo fuel rest

/-- All entries a WriteAheadLogIterator yields from a byte stream. -/
def walEntries (s : Bytes) : List WriteAheadLogEntry :=
  walEntriesGo s s

/-! The recovery protocol WriteAheadLog.load_dir (wal.rs lines 45-69).

The directory is modelled as the list of existing .wal files, each a pair
of file stem and on-disk content; scan_dir (utils.rs lines 5-18) keeps
exactly the .wal files, and the itertools sorted() call orders the paths
lexicographically. Crucially, the source calls WriteAheadLog::new BEFORE
scanning, so the freshly created (still empty) WAL file is itself part of
the scan: the loop eventually opens it, reads whatever has reached the
disk through the BufWriter by that moment, and pushes its path onto
remove_files. While the loop is iterating the new WAL file, every record
it re-encodes through new_wal.put or new_wal.delete can be flushed into
the very file being read, and the iterator, which reads from the current
file contents, then sees those appended bytes; replayChase models that
read-then-append cycle one record at a time (within one walIterNext call
no writes happen, so reading from a per-record snapshot of the file is
exact). The reader state is carried as the unread suffix of the file:
the reader sits at some byte position of an append-only file, so the
bytes still ahead of it are the rest of the record stream it last
decoded followed by whatever the writer flushes afterwards. -/

/-- The six chunks WriteAheadLog.put hands to write_all for a live record,
or the four chunks WriteAheadLog.delete hands over for a tombstone, in
order; writeChunks below feeds them one by one through the BufWriter. -/
def recordChunks (e : WriteAheadLogEntry) : List Bytes :=
  match e.value with
  | some v =>
    [toLE 16 e.timestamp, [0], toLE 8 e.key.length, toLE 8 v.length,
      e.key, v]
  | none =>
    [toLE 16 e.timestamp, [1], toLE 8 e.key.length, e.key]

/-- Feeding a list of chunks through the BufWriter, carrying the buffer
chunks, the buffer byte count (the O(1) len() Rust keeps for the buffer,
maintained incrementally so the capacity test is constant time), the file
bytes and the bytes flushed to the file during this call. Each step is
exactly one bwWriteF on the buffer-and-file state (writeChunks_cons
below); the branch decisions sit in the recursion itself so that the
state stays in evaluated form. -/
def writeChunks :
    List Bytes → List Bytes → Nat → Bytes → Bytes →
      List Bytes × Nat × Bytes × Bytes
  | [], buf, bufLen, disk, fl => (buf, bufLen, disk, fl)
  | c :: pending, buf, bufLen, disk, fl =>
    if bufCap < bufLen + c.length then
      if bufCap ≤ c.length then
        writeChunks pending [] 0 (disk ++ buf.reverse.flatten ++ c)
          (fl ++ buf.reverse.flatten ++ c)
      else
        writeChunks pending [c] c.length (disk ++ buf.reverse.flatten)
          (fl ++ buf.reverse.flatten)
    else
      if bufCap ≤ c.length then
        writeChunks pending buf bufLen (disk ++ c) (fl ++ c)
      else writeChunks pending (c :: buf) (bufLen + c.length) disk fl

/-- Applying one replayed record to the memtable (the second half of the
loop body, wal.rs lines 55 and 58). -/
def applyRecord (mt : MemTable) (e : WriteAheadLogEntry) : MemTable :=
  match e.value with
  | some v => mt.put e.timestamp e.key v
  | none => mt.delete e.timestamp e.key

/-- Replaying one old WAL file: its on-disk content is fixed (load_dir
never writes to the old files), so the iterator yields exactly the
entries of that content; each one is re-encoded into the new WAL writer
state (buf, disk) and applied to the memtable, in source order. The fuel
list bounds the number of records exactly as for walEntriesGo. -/
def replayLoop :
    List Nat → Bytes → List Bytes → Nat → Bytes → MemTable →
      List Bytes × Nat × Bytes × MemTable
  | [], _, buf, bufLen, disk, mt => (buf, bufLen, disk, mt)
  | _ :: fuel, s, buf, bufLen, disk, mt =>
    match walIterNext s with
    | none => (buf, bufLen, disk, mt)
    | some (e, rest) =>
      match writeChunks (recordChunks e) buf bufLen disk [] with
      | (buf2, bufLen2, disk2, _) =>
        replayLoop fuel rest buf2 bufLen2 disk2 (applyRecord mt e)

/-- Replaying the new WAL file from its own writer: decode one record from
the unread bytes of the file, re-encode it into the same writer (the
bytes this flushes are appended to the file, hence to the unread suffix
the reader still has ahead of it), apply it to the memtable, and continue
after the record just decoded. Returns none when the fuel runs out before
the iterator stops; the source loop has no such bound and simply keeps
running. -/
def chaseLoop :
    Nat → Bytes → List Bytes → Nat → Bytes → MemTable →
      Option (List Bytes × Nat × Bytes × MemTable)
  | 0, _, _, _, _, _ => none
  | fuel + 1, s, buf, bufLen, disk, mt =>
    match walIterNext s with
    | none => some (buf, bufLen, disk, mt)
    | some (e, rest) =>
      match writeChunks (recordChunks e) buf bufLen disk [] with
      | (buf2, bufLen2, disk2, fl) =>
        chaseLoop fuel (rest ++ fl) buf2 bufLen2 disk2 (applyRecord mt e)

/-- Lexicographic order used to sort the scanned paths. -/
def lexLe (a b : Bytes) : Bool :=
  match lexCompare a b with
  | .gt => false
  | _ => true

def insertSorted (x : Bytes) : List Bytes → List Bytes
  | [] => [x]
  | y :: ys => if lexLe x y then x :: y :: ys else y :: insertSorted x ys

/-- The sorted() call of itertools on the scanned paths. -/
def sortLex (l : List Bytes) : List Bytes := l.foldr insertSorted []

/-- Result of WriteAheadLog.load_dir: the returned WAL handle (path and
writer), the replayed memtable, and the .wal files left in the directory
after the remove_files pass. -/
structure LoadDirResult where
  newWalPath : Bytes
  newWal : BufWriter
  memtable : MemTable
  dirWalFiles : List (Bytes × Bytes)
deriving DecidableEq

def lookupFile (files : List (Bytes × Bytes)) (name : Bytes) : Option Bytes :=
  (files.find? fun f => f.1 = name).map Prod.snd

/-- Embedding of WriteAheadLog.load_dir (wal.rs lines 45-69). dirWals are
the .wal files present when load_dir is called; newName is the timestamp
stem WriteAheadLog::new derives from the clock. The model only covers runs
in which the fresh name is not already taken (the source would otherwise
append to an existing file) and in which the chase through the new WAL
file ends within the given fuel; fuel only limits that chase. -/
def loadDir (fuel : Nat) (dirWals : List (Bytes × Bytes)) (newName : Bytes) :
    Option LoadDirResult :=
  if dirWals.any fun f => f.1 = newName then none
  else
    let names := sortLex (newName :: dirWals.map Prod.fst)
    let step :
        Option (List Bytes × Nat × Bytes × MemTable × List Bytes) → Bytes →
          Option (List Bytes × Nat × Bytes × MemTable × List Bytes) :=
      fun acc name =>
      match acc with
      | none => none
      | some (buf, bufLen, disk, mt, removeFiles) =>
        if name = newName then
          match chaseLoop fuel disk buf bufLen disk mt with
          | none => none
          | some (buf2, bufLen2, disk2, mt2) =>
            some (buf2, bufLen2, disk2, mt2, removeFiles ++ [name])
        else
          match lookupFile dirWals name with
          | none => none
          | some content =>
            match replayLoop content content buf bufLen disk mt with
            | (buf2, bufLen2, disk2, mt2) =>
              some (buf2, bufLen2, disk2, mt2, removeFiles ++ [name])
    match names.foldl step (some ([], 0, [], MemTable.new, [])) with
    | none => none
    | some (buf, _, disk, mt, removeFiles) =>
      let diskFinal := disk ++ buf.reverse.flatten
      let dirAfterCreate := dirWals ++ [(newName, [])]
      let dirCurrent := dirAfterCreate.map fun f =>
        if f.1 = newName then (f.1, diskFinal) else f
      let dirAfter := removeFiles.foldl
        (fun d n => d.filter fun f => f.1 ≠ n) dirCurrent
      some ⟨newName, ⟨[], diskFinal⟩, mt, dirAfter⟩

/-- The memtable the specification expects from recovery: the records of
the surviving WAL files, taken in sorted file order then in-file order,
folded into an empty memtable (latest record on a key wins because each
record overwrites in place). -/
def specReplayMemtable (dirWals : List (Bytes × Bytes)) : MemTable :=
  ((sortLex (dirWals.map Prod.fst)).foldl
    (fun mt name =>
      (walEntries ((lookupFile dirWals name).getD [])).foldl
        (fun mt e =>
          match e.value with
          | some v => mt.put e.timestamp e.key v
          | none => mt.delete e.timestamp e.key)
        mt)
    MemTable.new)

/-! SSTable metadata (sstable.rs lines 18-28). -/

structure SstMetadata where
  level : Nat
  lookupTableOffset : Nat
  valuesTableOffset : Nat
  lowKey : Bytes
  highKey : Bytes
deriving DecidableEq

/-- Embedding of SstMetadata.write: three 8-byte LE usize fields followed
by the two length-prefixed keys. -/
def SstMetadata.write (m : SstMetadata) : Bytes :=
  toLE 8 m.level ++ toLE 8 m.lookupTableOffset ++ toLE 8 m.valuesTableOffset
    ++ toLE 8 m.lowKey.length ++ m.lowKey
    ++ toLE 8 m.highKey.length ++ m.highKey

/-! Engine (database.rs). -/

/-- The wall-clock reading utils.rs timestamp_now returns: the current
system time as microseconds since the Unix epoch. The clock is an input of
the model; the function applies no adjustment whatsoever to it. -/
def timestamp_now (clockMicros : Nat) : Nat := clockMicros

/-- The timestamps Database.put and Database.delete assign to a sequence
of mutations (database.rs lines 100 and 112): each mutation stores the
bare wall-clock reading taken at its call. -/
def assignedTimestamps (clockReadings : List Nat) : List Nat :=
  clockReadings.map timestamp_now

/-- Engine state: the current WAL, the two memtables, and the .wal and
.sst files of the working directory (pairs of file stem and content). The
current WAL file also appears in walFiles; its entry holds the flushed
bytes. -/
structure Database where
  wal : WriteAheadLog
  rw_memtable : MemTable
  ro_memtable : MemTable
  walFiles : List (Bytes × Bytes)
  sstFiles : List (Bytes × Bytes)
deriving DecidableEq

/-- Embedding of Database.swap_memtable (database.rs lines 131-153).
newWalName and sstName are the timestamp stems the two timestamp_now calls
produce. Returns none where the source would panic on one of its two
assertions (the old WAL path must exist; the SSTable path must not). The
sequence mirrors the source: reset ro_memtable, capture the old WAL path,
create a new WAL, swap the memtables, write every entry of the frozen
memtable through CommonBinaryFormatRef.write into the new .sst file (no
metadata is written), and only then delete the old WAL file. -/
def Database.swap_memtable (db : Database) (newWalName sstName : Bytes) :
    Option Database :=
  let db1 : Database := { db with ro_memtable := MemTable.new }
  let oldWalPath := db1.wal.path
  if db1.walFiles.all fun f => f.1 ≠ oldWalPath then none
  else
    let walFiles2 := db1.walFiles ++ [(newWalName, [])]
    let newWal : WriteAheadLog := ⟨⟨[], []⟩, newWalName⟩
    let newRo := db1.rw_memtable
    let newRw := db1.ro_memtable
    if db1.sstFiles.any fun f => f.1 = sstName then none
    else
      let sstContent := newRo.entries.foldl
        (fun acc e => acc ++ cbfWrite ⟨e.timestamp, e.key, e.value⟩) []
      let sstFiles2 := db1.sstFiles ++ [(sstName, sstContent)]
      let walFiles3 := walFiles2.filter fun f => f.1 ≠ oldWalPath
      some { wal := newWal, rw_memtable := newRw, ro_memtable := newRo,
             walFiles := walFiles3, sstFiles := sstFiles2 }

/-! Definitions used by individual claims. -/

/-- The data_size value the specification predicts: the sum over all stored
entries of key length, plus value length for live entries, plus the
per-entry overhead. -/
def specDataSize (mt : MemTable) : Nat :=
  mt.entries.foldl
    (fun a e =>
      a + e.key.length +
        (match e.value with
         | some v => v.length
         | none => 0) + memTableEntryOverhead) 0

/-- An old WAL content of 8218 bytes, all records on the single key 1:
seven puts with 1000-byte values (timestamps 1 to 7) followed by 28 puts
with 1-byte values (timestamps 100 to 127). Re-encoding it overflows the
8192-byte BufWriter once, so part of the stream is flushed into the fresh
WAL file before the directory loop reaches that file. -/
def c2Content : Bytes :=
  (((List.range 7).map fun i =>
    cbfWrite ⟨i + 1, [1], some (List.replicate 1000 ((i + 1) % 256))⟩).flatten
    ++ ((List.range 28).map fun j =>
      cbfWrite ⟨100 + j, [1], some [(100 + j) % 256]⟩).flatten)

/-- The new WAL writer state and the memtable after load_dir has replayed
the single old WAL file holding c2Content, at the moment the sorted
directory loop moves on to the freshly created WAL file itself. -/
def c2Phase1 : List Bytes × Nat × Bytes × MemTable :=
  replayLoop c2Content c2Content [] 0 [] MemTable.new

/-- A database state about to swap: the rw memtable holds one tombstone
entry for key 5; the current WAL file (stem 0) exists; no .sst files. -/
def c3Db : Database :=
  { wal := ⟨⟨[], []⟩, [48]⟩,
    rw_memtable := ⟨[⟨[5], none, 7⟩], 65⟩,
    ro_memtable := MemTable.new,
    walFiles := [([48], [])],
    sstFiles := [] }

/-- A database that swap_memtable at c3Db with stems 49 and 50 produces:
used to instantiate the success case of the C10 theorem at a concrete
input. -/
def c10SwapResult : Database :=
  { wal := ⟨⟨[], []⟩, [49]⟩,
    rw_memtable := MemTable.new,
    ro_memtable := ⟨[⟨[5], none, 7⟩], 65⟩,
    walFiles := [([49], [])],
    sstFiles := [([50], cbfWrite ⟨7, [5], none⟩)] }

/-! Supporting lemmas: reading a chunk out of a truncated concatenation,
and the fuel used for the iterator and binary-search loops is irrelevant
as soon as it dominates the input size, so the fueled definitions agree
with the unbounded Rust loops. -/

theorem length_toLE (w n : Nat) : (toLE w n).length = w := by
  induction w generalizing n with
  | zero => rfl
  | succ w ih => simp [toLE, ih]
theorem fromLE_toLE (w n : Nat) : fromLE (toLE w n) = n % 256 ^ w := by
  induction w generalizing n with
  | zero => simp [toLE, fromLE, Nat.mod_one]
  | succ w ih =>
    simp only [toLE, fromLE, ih]
    rw [pow_succ', Nat.mod_mul]
theorem readExact_spec (n : Nat) (s : Bytes) :
    readExact n s = if n ≤ s.length then some (s.take n, s.drop n) else none := by
  induction n generalizing s with
  | zero => simp [readExact]
  | succ n ih =>
    cases s with
    | nil => simp [readExact]
    | cons b s =>
      simp only [readExact, ih]
      by_cases h : n ≤ s.length
      · rw [if_pos h, if_pos (by simp [Nat.succ_le_succ h])]
        simp
      · rw [if_neg h, if_neg (by simp; omega)]
theorem readExact_eq_some {n : Nat} {s c t : Bytes}
    (h : readExact n s = some (c, t)) :
    c = s.take n ∧ t = s.drop n ∧ n ≤ s.length := by
  rw [readExact_spec] at h
  split at h <;> simp_all
theorem readExact_append {n : Nat} {c rest : Bytes} (h : c.length = n) :
    readExact n (c ++ rest) = some (c, rest) := by
  subst h
  simp [readExact_spec, List.take_left, List.drop_left]

theorem readExact_take {c rest : Bytes} {m : Nat} (hc : c.length = m) (n : Nat) :
    readExact m ((c ++ rest).take n) =
      if m ≤ n then some (c, rest.take (n - m)) else none := by
  by_cases h : m ≤ n
  · rw [if_pos h, List.take_append_eq_append_take,
      List.take_of_length_le (by omega : c.length ≤ n), hc]
    exact readExact_append hc
  · rw [if_neg h, readExact_spec]
    rw [if_neg]
    have hlen : ((c ++ rest).take n).length = min n (c ++ rest).length :=
      List.length_take n (c ++ rest)
    omega

theorem walIterNext_shrink {s : Bytes} {e : WriteAheadLogEntry} {rest : Bytes}
    (h : walIterNext s = some (e, rest)) : rest.length + 17 ≤ s.length := by
  unfold walIterNext at h
  cases h16 : readExact 16 s with
  | none => simp only [h16] at h; exact Option.noConfusion h
  | some p16 =>
    obtain ⟨tsb, s1⟩ := p16
    simp only [h16] at h
    obtain ⟨-, hs1, hl16⟩ := readExact_eq_some h16
    cases h1 : readExact 1 s1 with
    | none => simp only [h1] at h; exact Option.noConfusion h
    | some p1 =>
      obtain ⟨tb, s2⟩ := p1
      simp only [h1] at h
      obtain ⟨-, hs2, hl1⟩ := readExact_eq_some h1
      cases h8 : readExact 8 s2 with
      | none => simp only [h8] at h; exact Option.noConfusion h
      | some p8 =>
        obtain ⟨ksb, s3⟩ := p8
        simp only [h8] at h
        obtain ⟨-, hs3, hl8⟩ := readExact_eq_some h8
        have d1 : s1.length = s.length - 16 := by rw [hs1]; simp
        have d2 : s2.length = s1.length - 1 := by rw [hs2]; simp
        have d3 : s3.length = s2.length - 8 := by rw [hs3]; simp
        by_cases hd : (tb.headD 0 != 0) = true
        · rw [if_pos hd] at h
          cases hk : readExact (fromLE ksb) s3 with
          | none => simp only [hk] at h; exact Option.noConfusion h
          | some pk =>
            obtain ⟨key, s4⟩ := pk
            simp only [hk] at h
            obtain ⟨-, hs4, hlk⟩ := readExact_eq_some hk
            simp only [Option.some.injEq, Prod.mk.injEq] at h
            obtain ⟨-, hrest⟩ := h
            subst hrest
            have d4 : s4.length = s3.length - fromLE ksb := by rw [hs4]; simp
            omega
        · rw [if_neg hd] at h
          cases hv8 : readExact 8 s3 with
          | none => simp only [hv8] at h; exact Option.noConfusion h
          | some pv8 =>
            obtain ⟨vsb, s4⟩ := pv8
            simp only [hv8] at h
            obtain ⟨-, hs4, hlv8⟩ := readExact_eq_some hv8
            cases hk : readExact (fromLE ksb) s4 with
            | none => simp only [hk] at h; exact Option.noConfusion h
            | some pk =>
              obtain ⟨key, s5⟩ := pk
              simp only [hk] at h
              obtain ⟨-, hs5, hlk⟩ := readExact_eq_some hk
              cases hval : readExact (fromLE vsb) s5 with
              | none => simp only [hval] at h; exact Option.noConfusion h
              | some pval =>
                obtain ⟨value, s6⟩ := pval
                simp only [hval] at h
                obtain ⟨-, hs6, hlval⟩ := readExact_eq_some hval
                simp only [Option.some.injEq, Prod.mk.injEq] at h
                obtain ⟨-, hrest⟩ := h
                subst hrest
                have d4 : s4.length = s3.length - 8 := by rw [hs4]; simp
                have d5 : s5.length = s4.length - fromLE ksb := by rw [hs5]; simp
                have d6 : s6.length = s5.length - fromLE vsb := by rw [hs6]; simp
                omega

theorem walIterNext_nil : walIterNext [] = none := rfl

theorem walEntriesGo_fuel :
    ∀ {f1 f2 : List Nat} {s : Bytes},
      s.length ≤ f1.length → s.length ≤ f2.length →
      walEntriesGo f1 s = walEntriesGo f2 s := by
  intro f1
  induction f1 with
  | nil =>
    intro f2 s h1 _
    have hs : s = [] :=
      List.eq_nil_of_length_eq_zero (Nat.le_zero.mp (by simpa using h1))
    subst hs
    cases f2 with
    | nil => rfl
    | cons b f2 => simp [walEntriesGo, walIterNext_nil]
  | cons a f1 ih =>
    intro f2 s h1 h2
    cases f2 with
    | nil =>
      have hs : s = [] :=
        List.eq_nil_of_length_eq_zero (Nat.le_zero.mp (by simpa using h2))
      subst hs
      simp [walEntriesGo, walIterNext_nil]
    | cons b f2 =>
      simp only [walEntriesGo]
      cases he : walIterNext s with
      | none => rfl
      | some p =>
        obtain ⟨e, rest⟩ := p
        have hsh := walIterNext_shrink he
        exact congrArg (e :: ·)
          (@ih f2 rest (by simp at h1 ⊢; omega) (by simp at h2 ⊢; omega))

theorem walEntries_eq (s : Bytes) :
    walEntries s =
      match walIterNext s with
      | none => []
      | some (e, rest) => e :: walEntries rest := by
  unfold walEntries
  cases he : walIterNext s with
  | none =>
    simp only [he]
    cases s with
    | nil => rfl
    | cons b s2 => simp [walEntriesGo, he]
  | some p =>
    obtain ⟨e, rest⟩ := p
    have hsh := walIterNext_shrink he
    simp only [he]
    cases s with
    | nil => simp [walIterNext_nil] at he
    | cons b s2 =>
      simp only [walEntriesGo, he]
      exact congrArg (e :: ·)
        (@walEntriesGo_fuel s2 rest rest (by simp at hsh ⊢; omega)
          (Nat.le_refl _))

theorem bsearchGo_fuel :
    ∀ {f1 f2 : Nat} {keys : List Bytes} {target : Bytes} {left right : Nat},
      right - left ≤ f1 → right - left ≤ f2 →
      bsearchGo f1 keys target left right = bsearchGo f2 keys target left right := by
  intro f1
  induction f1 with
  | zero =>
    intro f2 keys target left right h1 _
    cases f2 with
    | zero => rfl
    | succ f2 =>
      simp only [bsearchGo]
      rw [if_neg (by omega)]
  | succ f1 ih =>
    intro f2 keys target left right h1 h2
    cases f2 with
    | zero =>
      simp only [bsearchGo]
      rw [if_neg (by omega)]
    | succ f2 =>
      simp only [bsearchGo]
      by_cases hlr : left < right
      · rw [if_pos hlr, if_pos hlr]
        cases hcmp :
            lexCompare (keys.getD (left + (right - left) / 2) []) target with
        | lt =>
          simp only [hcmp]
          exact @ih f2 keys target (left + (right - left) / 2 + 1) right
            (by omega) (by omega)
        | gt =>
          simp only [hcmp]
          exact @ih f2 keys target left (left + (right - left) / 2)
            (by omega) (by omega)
        | eq => simp only [hcmp]
      · rw [if_neg hlr, if_neg hlr]

/-! Codec round trip and truncation behavior. -/

theorem pow256_8 : (256 : Nat) ^ 8 = 2 ^ 64 := by norm_num

theorem pow256_16 : (256 : Nat) ^ 16 = 2 ^ 128 := by norm_num

theorem readExact_exact {n : Nat} {c : Bytes} (h : c.length = n) :
    readExact n c = some (c, []) := by
  subst h
  simp [readExact_spec]

theorem cbfRead_cbfWrite (r : CommonBinaryFormat)
    (hts : r.timestamp < 2 ^ 128) (hk : r.key.length < 2 ^ 64)
    (hv : (r.value.getD []).length < 2 ^ 64) :
    cbfRead (cbfWrite r) = .ok (r, []) := by
  obtain ⟨ts, key, value⟩ := r
  simp only at hts hk hv
  have hts2 : fromLE (toLE 16 ts) = ts := by
    rw [fromLE_toLE, pow256_16]
    exact Nat.mod_eq_of_lt hts
  have hk2 : fromLE (toLE 8 key.length) = key.length := by
    rw [fromLE_toLE, pow256_8]
    exact Nat.mod_eq_of_lt hk
  cases value with
  | none =>
    have henc : cbfWrite ⟨ts, key, none⟩ =
        toLE 16 ts ++ ([1] ++ (toLE 8 key.length ++ key)) := by
      simp [cbfWrite, List.append_assoc]
    rw [henc]
    have h1 : readExact 1 ([1] ++ (toLE 8 key.length ++ key))
        = some ([1], toLE 8 key.length ++ key) := readExact_append rfl
    have hkx : readExact key.length key = some (key, []) := readExact_exact rfl
    simp only [cbfRead, readExact_append (length_toLE 16 ts), h1,
      readExact_append (length_toLE 8 key.length), hts2, hk2, hkx]
    simp
  | some v =>
    have hvl : v.length < 2 ^ 64 := by simpa using hv
    have hv2 : fromLE (toLE 8 v.length) = v.length := by
      rw [fromLE_toLE, pow256_8]
      exact Nat.mod_eq_of_lt hvl
    have henc : cbfWrite ⟨ts, key, some v⟩ =
        toLE 16 ts ++
          ([0] ++ (toLE 8 key.length ++ (toLE 8 v.length ++ (key ++ v)))) := by
      simp [cbfWrite, List.append_assoc]
    rw [henc]
    have h1 : readExact 1
          ([0] ++ (toLE 8 key.length ++ (toLE 8 v.length ++ (key ++ v))))
        = some ([0], toLE 8 key.length ++ (toLE 8 v.length ++ (key ++ v))) :=
      readExact_append rfl
    have hkey : readExact key.length (key ++ v) = some (key, v) :=
      readExact_append rfl
    have hval : readExact v.length v = some (v, []) := readExact_exact rfl
    simp only [cbfRead, readExact_append (length_toLE 16 ts), h1,
      readExact_append (length_toLE 8 key.length),
      readExact_append (length_toLE 8 v.length), hts2, hk2, hv2, hkey, hval]
    simp

/-! The WAL iterator decodes exactly like the shared codec, and writes
through a BufWriter append exactly the written bytes to the combination
of file and buffer. -/

theorem walIterNext_eq_cbfRead (s : Bytes) :
    walIterNext s =
      match cbfRead s with
      | .error _ => none
      | .ok (r, rest) => some (⟨r.key, r.value, r.timestamp⟩, rest) := by
  unfold walIterNext cbfRead
  cases h16 : readExact 16 s with
  | none => simp only [h16]
  | some p16 =>
    obtain ⟨tsb, s1⟩ := p16
    simp only [h16]
    cases h1 : readExact 1 s1 with
    | none => simp only [h1]
    | some p1 =>
      obtain ⟨tb, s2⟩ := p1
      simp only [h1]
      cases h8 : readExact 8 s2 with
      | none => simp only [h8]
      | some p8 =>
        obtain ⟨ksb, s3⟩ := p8
        simp only [h8]
        by_cases hd : (tb.headD 0 != 0) = true
        · simp only [if_pos hd]
          cases hk : readExact (fromLE ksb) s3 with
          | none => simp only [hk]
          | some pk => simp only [hk]
        · simp only [if_neg hd]
          cases hv8 : readExact 8 s3 with
          | none => simp only [hv8]
          | some pv8 =>
            obtain ⟨vsb, s4⟩ := pv8
            simp only [hv8]
            cases hk : readExact (fromLE ksb) s4 with
            | none => simp only [hk]
            | some pk =>
              obtain ⟨key, s5⟩ := pk
              simp only [hk]
              cases hval : readExact (fromLE vsb) s5 with
              | none => simp only [hval]
              | some pval => simp only [hval]

theorem bwWriteF_flat (w : BufWriter) (c : Bytes) :
    (bwWriteF w c).1.disk ++ bufBytes (bwWriteF w c).1 =
      w.disk ++ bufBytes w ++ c := by
  unfold bwWriteF
  by_cases h1 : bufCap < (bufBytes w).length + c.length
  · rw [if_pos h1]
    by_cases h2 : bufCap ≤ c.length
    · rw [if_pos h2]
      simp [bufBytes]
    · rw [if_neg h2]
      simp [bufBytes]
  · rw [if_neg h1]
    by_cases h2 : bufCap ≤ c.length
    · rw [if_pos h2]
      have hb : bufBytes w = [] := by
        refine List.eq_nil_of_length_eq_zero ?_
        unfold bufCap at h1 h2
        omega
      simp only [bufBytes] at hb
      simp only [bufBytes, hb]
      simp
    · rw [if_neg h2]
      simp [bufBytes, List.append_assoc]

theorem bwWriteF_disk (w : BufWriter) (c : Bytes) :
    (bwWriteF w c).1.disk = w.disk ++ (bwWriteF w c).2 := by
  unfold bwWriteF
  by_cases h1 : bufCap < (bufBytes w).length + c.length
  · rw [if_pos h1]
    by_cases h2 : bufCap ≤ c.length
    · rw [if_pos h2]
      try simp [List.append_assoc]
    · rw [if_neg h2]
      try simp
  · rw [if_neg h1]
    by_cases h2 : bufCap ≤ c.length
    · rw [if_pos h2]
      try simp
    · rw [if_neg h2]
      try simp

/-- One step of writeChunks is exactly one buffered write: feeding the
next chunk equals applying bwWriteF to the buffer-and-file state (with the
returned flushed bytes appended to the flush accumulator), provided the
tracked length is the buffer's length. -/
theorem writeChunks_cons (c : Bytes) (pending buf : List Bytes)
    (disk fl : Bytes) :
    writeChunks (c :: pending) buf (bufBytes ⟨buf, disk⟩).length disk fl =
      writeChunks pending (bwWriteF ⟨buf, disk⟩ c).1.bufChunks
        (bufBytes (bwWriteF ⟨buf, disk⟩ c).1).length
        (bwWriteF ⟨buf, disk⟩ c).1.disk
        (fl ++ (bwWriteF ⟨buf, disk⟩ c).2) := by
  conv_lhs => rw [writeChunks]
  by_cases h1 : bufCap < (bufBytes ⟨buf, disk⟩).length + c.length
  · by_cases h2 : bufCap ≤ c.length
    · simp only [bwWriteF, if_pos h1, if_pos h2]
      simp [bufBytes, List.append_assoc]
    · simp only [bwWriteF, if_pos h1, if_neg h2]
      simp [bufBytes, List.append_assoc]
  · by_cases h2 : bufCap ≤ c.length
    · simp only [bwWriteF, if_neg h1, if_pos h2]
      simp [bufBytes, List.append_assoc]
    · simp only [bwWriteF, if_neg h1, if_neg h2]
      simp [bufBytes, List.append_assoc]

theorem cbfRead_truncation (r : CommonBinaryFormat)
    (hk : r.key.length < 2 ^ 64) (hv : (r.value.getD []).length < 2 ^ 64)
    (n : Nat) (hn : n < (cbfWrite r).length) :
    cbfRead ((cbfWrite r).take n) = .error .unexpectedEof := by
  obtain ⟨ts, key, value⟩ := r
  simp only at hk hv
  have hk2 : fromLE (toLE 8 key.length) = key.length := by
    rw [fromLE_toLE, pow256_8]
    exact Nat.mod_eq_of_lt hk
  cases value with
  | none =>
    have henc : cbfWrite ⟨ts, key, none⟩ =
        toLE 16 ts ++ ([1] ++ (toLE 8 key.length ++ (key ++ []))) := by
      simp [cbfWrite, List.append_assoc]
    rw [henc] at hn ⊢
    have hL : (toLE 16 ts ++ ([1] ++ (toLE 8 key.length ++ (key ++ [])))).length
        = 25 + key.length := by
      simp [length_toLE]
      omega
    rw [hL] at hn
    by_cases h16 : 16 ≤ n
    · simp only [cbfRead, readExact_take (length_toLE 16 ts) n, if_pos h16]
      by_cases h17 : 1 ≤ n - 16
      · simp only [readExact_take (show ([1] : Bytes).length = 1 from rfl) (n - 16),
          if_pos h17]
        by_cases h25 : 8 ≤ n - 16 - 1
        · simp only [readExact_take (length_toLE 8 key.length) (n - 16 - 1),
            if_pos h25, hk2]
          simp only [List.headD, bne_self_eq_false]
          have hfin : ¬ key.length ≤ n - 16 - 1 - 8 := by omega
          simp only [readExact_take (show key.length = key.length from rfl)
              (n - 16 - 1 - 8), if_neg hfin]
          simp
        · simp only [readExact_take (length_toLE 8 key.length) (n - 16 - 1),
            if_neg h25]
      · simp only [readExact_take (show ([1] : Bytes).length = 1 from rfl) (n - 16),
          if_neg h17]
    · simp only [cbfRead, readExact_take (length_toLE 16 ts) n, if_neg h16]
  | some v =>
    have hvl : v.length < 2 ^ 64 := by simpa using hv
    have hv2 : fromLE (toLE 8 v.length) = v.length := by
      rw [fromLE_toLE, pow256_8]
      exact Nat.mod_eq_of_lt hvl
    have henc : cbfWrite ⟨ts, key, some v⟩ =
        toLE 16 ts ++
          ([0] ++ (toLE 8 key.length ++ (toLE 8 v.length ++ (key ++ (v ++ []))))) := by
      simp [cbfWrite, List.append_assoc]
    rw [henc] at hn ⊢
    have hL : (toLE 16 ts ++
          ([0] ++ (toLE 8 key.length ++ (toLE 8 v.length ++ (key ++ (v ++ [])))))).length
        = 33 + key.length + v.length := by
      simp [length_toLE]
      omega
    rw [hL] at hn
    by_cases h16 : 16 ≤ n
    · simp only [cbfRead, readExact_take (length_toLE 16 ts) n, if_pos h16]
      by_cases h17 : 1 ≤ n - 16
      · simp only [readExact_take (show ([0] : Bytes).length = 1 from rfl) (n - 16),
          if_pos h17]
        by_cases h25 : 8 ≤ n - 16 - 1
        · simp only [readExact_take (length_toLE 8 key.length) (n - 16 - 1),
            if_pos h25, hk2]
          simp only [List.headD, bne_self_eq_false, Bool.false_eq_true,
            if_false]
          by_cases h33 : 8 ≤ n - 16 - 1 - 8
          · simp only [readExact_take (length_toLE 8 v.length) (n - 16 - 1 - 8),
              if_pos h33, hv2]
            by_cases hkey : key.length ≤ n - 16 - 1 - 8 - 8
            · simp only [readExact_take (show key.length = key.length from rfl)
                  (n - 16 - 1 - 8 - 8), if_pos hkey]
              have hfin : ¬ v.length ≤ n - 16 - 1 - 8 - 8 - key.length := by omega
              simp only [readExact_take (show v.length = v.length from rfl)
                  (n - 16 - 1 - 8 - 8 - key.length), if_neg hfin]
            · simp only [readExact_take (show key.length = key.length from rfl)
                  (n - 16 - 1 - 8 - 8), if_neg hkey]
          · simp only [readExact_take (length_toLE 8 v.length) (n - 16 - 1 - 8),
              if_neg h33]
        · simp only [readExact_take (length_toLE 8 key.length) (n - 16 - 1),
            if_neg h25]
      · simp only [readExact_take (show ([0] : Bytes).length = 1 from rfl) (n - 16),
          if_neg h17]
    · simp only [cbfRead, readExact_take (length_toLE 16 ts) n, if_neg h16]

/-! Claim theorems. -/

/-- Claim C1: the claim states that after load_dir returns exactly one
.wal file exists in the working directory. The code creates the new WAL
before scanning, so the scan includes it, the replay loop pushes it onto
remove_files, and the final deletion pass removes every scanned file,
including the fresh WAL: afterwards the directory holds zero .wal files.
This theorem evaluates the model at two failing inputs: an empty
directory, and a directory holding one WAL with a single record. -/
theorem c1_load_dir_deletes_every_wal_file :
    ((loadDir 1 [] [49]).map LoadDirResult.dirWalFiles = some []) ∧
    ((loadDir 9 [([49], cbfWrite ⟨1, [1], some [2]⟩)] [50]).map
        LoadDirResult.dirWalFiles = some []) := by decide

set_option maxRecDepth 100000 in
/-- Claim C2: the claim states that the memtable load_dir returns is the
in-order fold of the surviving WAL records, latest record per key
winning. At c2Content the fold leaves key 1 at timestamp 127, and indeed
after replaying the old file the memtable agrees with the fold; but at
that point the fresh WAL file, which the sorted scan also contains,
already holds flushed bytes whose first record is the stale put from
timestamp 1, and re-applying that record (which the loop proceeds to do,
since it iterates the fresh WAL too) moves key 1 back to timestamp 1,
away from the fold. -/
theorem c2_load_dir_replays_stale_records :
    c2Phase1.2.2.2 = specReplayMemtable [([49], c2Content)] ∧
    c2Phase1.2.2.2.get [1] = some ⟨[1], some [127], 127⟩ ∧
    ((walIterNext c2Phase1.2.2.1).map fun p =>
        (p.1.timestamp, p.1.key, p.1.value))
      = some (1, [1], some (List.replicate 1000 1)) ∧
    (applyRecord c2Phase1.2.2.2 ⟨[1], some (List.replicate 1000 1), 1⟩).get [1]
      = some ⟨[1], some (List.replicate 1000 1), 1⟩ := by decide

/-- Claim C3: the claim states that the .sst file written by
swap_memtable starts with a metadata block carrying low_key and high_key.
The code writes only the raw records: at c3Db the whole file is the
single 26-byte tombstone record, while any SstMetadata.write output takes
at least 40 bytes, so no metadata block can be a prefix of the file. The
remaining parts of the claim (old WAL gone, new WAL present, entries of
the previous rw memtable in order) do hold at this input. -/
theorem c3_swap_writes_sst_without_metadata :
    ((c3Db.swap_memtable [49] [50]).map fun d =>
        (d.walFiles, d.sstFiles, d.ro_memtable.entries, d.rw_memtable))
      = some ([([49], [])], [([50], cbfWrite ⟨7, [5], none⟩)],
          [⟨[5], none, 7⟩], MemTable.new) ∧
    (cbfWrite ⟨7, [5], none⟩).length = 26 ∧
    ∀ (m : SstMetadata) (rest : Bytes),
      SstMetadata.write m ++ rest ≠ cbfWrite ⟨7, [5], none⟩ := by
  refine ⟨by decide, by decide, fun m rest h => ?_⟩
  have h26 : (cbfWrite ⟨7, [5], none⟩).length = 26 := by decide
  have hlen := congrArg List.length h
  rw [h26] at hlen
  simp [SstMetadata.write, length_toLE, List.length_append] at hlen
  omega

/-- Claim C4: the claim states that data_size always equals the sum over
stored entries of key length plus live value length plus the per-entry
overhead, and that it never underflows. A put over a tombstone leaves
data_size unchanged, so after put, delete, put on one key the counter
reads 65 while the claimed sum is 67; and with an empty first value and a
100-byte revived value the final delete subtracts 100 from 65, wrapping
to 2 ^ 64 - 35 (a panic in a debug build). -/
theorem c4_data_size_deviates_from_claimed_sum :
    (((MemTable.new.put 1 [1] [2]).delete 2 [1]).put 3 [1] [7, 7]).data_size
        = 65 ∧
    specDataSize ((((MemTable.new.put 1 [1] [2]).delete 2 [1]).put 3 [1]
        [7, 7])) = 67 ∧
    ((((MemTable.new.put 1 [1] []).delete 2 [1]).put 3 [1]
        (List.replicate 100 7)).delete 4 [1]).data_size = 2 ^ 64 - 35 := by
  decide

/-- Claim C5: the claim states that decoding the encoding of any record
gives the record back. Confirmed for every record whose fields fit the
fixed-width layout the source serializes through (u128 timestamp, usize
lengths): the reader consumes exactly the written bytes and returns the
record with an empty remainder. -/
theorem c5_codec_round_trip (r : CommonBinaryFormat)
    (hts : r.timestamp < 2 ^ 128) (hk : r.key.length < 2 ^ 64)
    (hv : (r.value.getD []).length < 2 ^ 64) :
    cbfRead (cbfWrite r) = .ok (r, []) :=
  cbfRead_cbfWrite r hts hk hv

/-- Claim C5, witness: the round trip evaluated on a live-value record and
on a tombstone. -/
theorem c5_codec_round_trip_witness :
    cbfRead (cbfWrite ⟨5, [1, 2], some [3]⟩) = .ok (⟨5, [1, 2], some [3]⟩, []) ∧
    cbfRead (cbfWrite ⟨7, [9], none⟩) = .ok (⟨7, [9], none⟩, []) :=
  ⟨c5_codec_round_trip ⟨5, [1, 2], some [3]⟩ (by norm_num) (by decide) (by decide),
   c5_codec_round_trip ⟨7, [9], none⟩ (by norm_num) (by decide) (by decide)⟩

/-- Claim C6, counterexample: the claim states that exhaustion at a record
boundary yields a clean end-of-stream signal distinguishable from the
corruption error. The reader returns the very same UnexpectedEof error for
the empty stream (a clean boundary) as for a stream cut in the middle of a
record, and the WAL iterator maps both to none. -/
theorem c6_eof_counterexample :
    cbfRead [] = .error .unexpectedEof ∧
    cbfRead ((cbfWrite ⟨5, [1], some [2]⟩).take 10) = .error .unexpectedEof ∧
    walIterNext [] = none ∧
    walIterNext ((cbfWrite ⟨5, [1], some [2]⟩).take 10) = none :=
  ⟨rfl, rfl, rfl, rfl⟩

/-- Claim C6, amended: what the reader actually guarantees. Every strict
prefix of an encoded record, the empty prefix included, makes cbfRead
return UnexpectedEof and makes the WAL iterator return none: one signal
covers clean exhaustion and truncation alike. -/
theorem c6_truncation_amended (r : CommonBinaryFormat)
    (hk : r.key.length < 2 ^ 64) (hv : (r.value.getD []).length < 2 ^ 64)
    (n : Nat) (hn : n < (cbfWrite r).length) :
    cbfRead ((cbfWrite r).take n) = .error .unexpectedEof ∧
    walIterNext ((cbfWrite r).take n) = none := by
  have h := cbfRead_truncation r hk hv n hn
  refine ⟨h, ?_⟩
  rw [walIterNext_eq_cbfRead, h]

/-- Claim C6, witness: the amended theorem evaluated at the empty prefix
of a concrete record. -/
theorem c6_truncation_amended_witness :
    cbfRead ((cbfWrite ⟨5, [1], some [2]⟩).take 0) = .error .unexpectedEof ∧
    walIterNext ((cbfWrite ⟨5, [1], some [2]⟩).take 0) = none :=
  c6_truncation_amended ⟨5, [1], some [2]⟩ (by decide) (by decide) 0 (by decide)

/-- Claim C7, counterexample: the claim states that timestamps of
successive mutations are strictly increasing even under a stalled clock,
the engine bumping by one microsecond. With the clock stuck at 5 the two
assigned timestamps are both 5: the second equals the first instead of
exceeding it, and no bump to 6 happens. -/
theorem c7_no_bump_counterexample :
    assignedTimestamps [5, 5] = [5, 5] ∧
    (assignedTimestamps [5, 5]).getD 1 0 = (assignedTimestamps [5, 5]).getD 0 0 ∧
    (((assignedTimestamps [5, 5]).getD 1 0 ==
        (assignedTimestamps [5, 5]).getD 0 0 + 1) = false) := by decide

/-- Claim C7, amended: the engine stores the bare wall-clock reading taken
at each call, applying no adjustment, so assigned timestamps are exactly
the clock readings; they are strictly increasing precisely when the clock
itself strictly advances between calls. -/
theorem c7_timestamps_are_clock_readings (clockReadings : List Nat) :
    assignedTimestamps clockReadings = clockReadings :=
  List.map_id clockReadings

/-- Claim C8: the WAL module writes records through its own six (put) or
four (delete) write_all calls; this refines the shared codec: for every
record and every writer state, the bytes reaching file plus buffer are
exactly the previous content followed by CommonBinaryFormatRef.write of
that record. -/
theorem c8_wal_encoder_matches_codec (w : WriteAheadLog) (key value : Bytes)
    (timestamp : Nat) :
    ((w.put key value timestamp).target.disk
        ++ bufBytes (w.put key value timestamp).target
      = w.target.disk ++ bufBytes w.target
          ++ cbfWrite ⟨timestamp, key, some value⟩) ∧
    ((w.delete key timestamp).target.disk
        ++ bufBytes (w.delete key timestamp).target
      = w.target.disk ++ bufBytes w.target
          ++ cbfWrite ⟨timestamp, key, none⟩) := by
  constructor
  · simp only [WriteAheadLog.put, WriteAheadLog.putF]
    rw [bwWriteF_flat, bwWriteF_flat, bwWriteF_flat, bwWriteF_flat,
      bwWriteF_flat, bwWriteF_flat]
    simp [cbfWrite, List.append_assoc]
  · simp only [WriteAheadLog.delete, WriteAheadLog.deleteF]
    rw [bwWriteF_flat, bwWriteF_flat, bwWriteF_flat, bwWriteF_flat]
    simp [cbfWrite, List.append_assoc]

/-- Claim C9: a put over a tombstone entry replaces the stored value and
timestamp in place but leaves data_size untouched (the none branch of the
size update). -/
theorem c9_put_over_tombstone (mt : MemTable) (key : Bytes) (idx : Nat)
    (hidx : mt.get_index key = .ok idx)
    (hts : (mt.entries.getD idx ⟨[], none, 0⟩).value = none)
    (timestamp : Nat) (value : Bytes) :
    (mt.put timestamp key value).entries
        = mt.entries.set idx
            { mt.entries.getD idx ⟨[], none, 0⟩ with
                value := some value, timestamp := timestamp } ∧
    (mt.put timestamp key value).data_size = mt.data_size := by
  unfold MemTable.put
  rw [hidx]
  simp only [hts]
  exact ⟨trivial, trivial⟩

/-- Claim C9, witness: the theorem evaluated on a memtable holding one
tombstone for key 3, revived by a put of a two-byte value. -/
theorem c9_put_over_tombstone_witness :
    ((MemTable.new.delete 1 [3]).put 2 [3] [9, 9]).entries
        = (MemTable.new.delete 1 [3]).entries.set 0
            { (MemTable.new.delete 1 [3]).entries.getD 0 ⟨[], none, 0⟩ with
                value := some [9, 9], timestamp := 2 } ∧
    ((MemTable.new.delete 1 [3]).put 2 [3] [9, 9]).data_size
        = (MemTable.new.delete 1 [3]).data_size :=
  c9_put_over_tombstone (MemTable.new.delete 1 [3]) [3] 0 rfl rfl 2 [9, 9]

/-- Claim C10: swap_memtable reads no part of the ro memtable. Replacing
the ro memtable by anything else changes nothing about the call, and on
success the new rw memtable is a fresh empty memtable (the discarded ro
contents appear nowhere) while the new ro memtable is the previous rw
memtable. -/
theorem c10_swap_memtable_ignores_ro (db : Database) (ro : MemTable)
    (newWalName sstName : Bytes) :
    ({ db with ro_memtable := ro } : Database).swap_memtable newWalName
        sstName
      = db.swap_memtable newWalName sstName ∧
    ∀ d, db.swap_memtable newWalName sstName = some d →
      d.rw_memtable = MemTable.new ∧ d.ro_memtable = db.rw_memtable := by
  refine ⟨rfl, fun d hd => ?_⟩
  simp only [Database.swap_memtable] at hd
  split at hd
  · exact Option.noConfusion hd
  · split at hd
    · exact Option.noConfusion hd
    · injection hd with h
      subst h
      exact ⟨rfl, rfl⟩

/-- Claim C10, witness: the concrete success case of swap_memtable at
c3Db, instantiating the universally quantified success clause of the
theorem. -/
theorem c10_swap_memtable_ignores_ro_witness :
    c10SwapResult.rw_memtable = MemTable.new ∧
    c10SwapResult.ro_memtable = c3Db.rw_memtable :=
  (c10_swap_memtable_ignores_ro c3Db MemTable.new [49] [50]).2 c10SwapResult
    (by decide)

end ToyLsmDb
